import Mathlib

/-!
Verification of the capture/mix/reconstruct pipeline of the electron-app
audio recorder.

The native mixer (`SystemAudioCapture.mm`) is embedded over ℚ: audio
samples are rationals, the transcendental `expf` used by the soft clipper
is kept as an explicit function parameter, constants such as `0.9f`,
`0.3f`, `0.05f` are written as the exact rationals `9/10`, `3/10`, `1/20`.
The renderer (`AudioRecorder.tsx`) and the main-process IPC layer
(`main.ts`) are embedded as pure state-transition functions.
-/

/-! ## Mixer ducking state (`AudioMixer` in `SystemAudioCapture.mm`)

`_lastSystemPeak` and `_micDuckingFactor` from the `AudioMixer` instance
variables; `initWithFormat` sets `_lastSystemPeak = 0.0f` and
`_micDuckingFactor = 1.0f`.
-/

structure DuckSt where
  ema : ℚ
  duck : ℚ
  deriving DecidableEq

/-- Initial mixer control state from `initWithFormat`:
`_lastSystemPeak = 0.0f; _micDuckingFactor = 1.0f`. -/
def initDuckSt : DuckSt := ⟨0, 1⟩

/-- Peak absolute value of a buffer, the loop
`currentSystemPeak = fmax(currentSystemPeak, fabsf(systemBuffer[i]))`
starting from `0.0f` (also the renderer's
`peakValue = Math.max(peakValue, Math.abs(combinedArray[i]))` loop). -/
def peakAbs (xs : List ℚ) : ℚ :=
  xs.foldl (fun a x => max a |x|) 0

/-- The per-pass ducking update of `processSystemAudio`
(`SystemAudioCapture.mm` lines 76-93): EMA-smooth the frame peak, compute
the target ducking, smooth the ducking factor. -/
def duckStep (st : DuckSt) (sysFrame : List ℚ) : DuckSt :=
  let currentSystemPeak := peakAbs sysFrame
  let ema := st.ema * (9/10) + currentSystemPeak * (1/10)
  let targetDucking := if ema > 1/10 then max (3/10) (1 - ema * (15/10)) else 1
  ⟨ema, st.duck * (19/20) + targetDucking * (1/20)⟩

/-- Accumulator bound used in the ducking invariant: the foldl computing
`peakAbs` only ever grows a nonnegative accumulator. -/
theorem peakAbs_foldl_nonneg (xs : List ℚ) (a : ℚ) (ha : 0 ≤ a) :
    0 ≤ xs.foldl (fun a x => max a |x|) a := by
  induction xs generalizing a with
  | nil => simpa using ha
  | cons x xs ih =>
    exact ih _ (le_trans ha (le_max_left _ _))

theorem peakAbs_nonneg (xs : List ℚ) : 0 ≤ peakAbs xs :=
  peakAbs_foldl_nonneg xs 0 le_rfl

/-- The inductive invariant for the ducking state machine: the EMA of the
system peak is nonnegative and the ducking factor lies in `[3/10, 1]`. -/
def DuckInv (st : DuckSt) : Prop :=
  0 ≤ st.ema ∧ 3/10 ≤ st.duck ∧ st.duck ≤ 1

theorem duckStep_inv (st : DuckSt) (sysFrame : List ℚ) (h : DuckInv st) :
    DuckInv (duckStep st sysFrame) := by
  obtain ⟨hema, hlo, hhi⟩ := h
  have hpeak : 0 ≤ peakAbs sysFrame := peakAbs_nonneg sysFrame
  unfold DuckInv duckStep
  simp only
  set ema := st.ema * (9/10) + peakAbs sysFrame * (1/10) with hema'
  have hema0 : 0 ≤ ema := by positivity
  set target := if ema > 1/10 then max (3/10) (1 - ema * (15/10)) else 1 with htgt
  have htlo : 3/10 ≤ target := by
    rw [htgt]
    split
    · exact le_max_left _ _
    · norm_num
  have hthi : target ≤ 1 := by
    rw [htgt]
    split
    · refine max_le (by norm_num) (by nlinarith)
    · exact le_refl 1
  refine ⟨hema0, ?_, ?_⟩ <;> nlinarith

theorem duckRun_inv (frames : List (List ℚ)) (st : DuckSt) (h : DuckInv st) :
    DuckInv (frames.foldl duckStep st) := by
  induction frames generalizing st with
  | nil => simpa using h
  | cons f fs ih => exact ih _ (duckStep_inv st f h)

/-- Claim C1: from the initial mixer state (`micDuckingFactor = 1.0`,
`emaSystemPeak = 0.0`), after every sequence of mixing passes over
arbitrary system frames the mic ducking factor stays in the closed
interval `[3/10, 1]`: the target ducking is always in that interval and
the smoothing update `duck*0.95 + target*0.05` is a convex combination. -/
theorem micDuckingFactor_bounds (frames : List (List ℚ)) :
    3/10 ≤ (frames.foldl duckStep initDuckSt).duck ∧
      (frames.foldl duckStep initDuckSt).duck ≤ 1 := by
  have h := duckRun_inv frames initDuckSt (by norm_num [DuckInv, initDuckSt])
  exact ⟨h.2.1, h.2.2⟩

/-! ## Circular delay line (`_delayBuffer` in `AudioMixer`)

`initWithFormat` allocates `_delayBufferSize = format.mSampleRate * 0.10`
floats (`48000 * 0.10 = 4800`, 100 ms) with `calloc` (zero-initialized)
and sets `_delayBufferPos = 0`.  Each processed system sample reads the
slot at `_delayBufferPos`, overwrites it with the current sample and
advances the position modulo the buffer size.
-/

structure DelayLine where
  buf : List ℚ
  pos : ℕ
  deriving DecidableEq

/-- `float delayedSystem = _delayBuffer[_delayBufferPos];` -/
def ringRead (d : DelayLine) : ℚ := d.buf.getD d.pos 0

/-- `_delayBuffer[_delayBufferPos] = systemSample;
_delayBufferPos = (_delayBufferPos + 1) % _delayBufferSize;` -/
def ringWrite (d : DelayLine) (x : ℚ) : DelayLine :=
  ⟨d.buf.set d.pos x, (d.pos + 1) % d.buf.length⟩

/-- Zero-initialized 4800-slot delay line from `initWithFormat`. -/
def initDelayLine : DelayLine := ⟨List.replicate 4800 0, 0⟩

/-- The sequence of delayed values read while feeding the samples `xs`
through the delay line, one read-then-write pair per sample, exactly as
the per-sample loop of `processSystemAudio` performs them. -/
def delayRun (d : DelayLine) : List ℚ → List ℚ
  | [] => []
  | x :: xs => ringRead d :: delayRun (ringWrite d x) xs

/-- Rotating view of the ring buffer: the slots in read order starting at
the current position. -/
def ringView (d : DelayLine) : List ℚ := d.buf.drop d.pos ++ d.buf.take d.pos

theorem ringView_write (buf : List ℚ) (pos : ℕ) (x : ℚ) (hpos : pos < buf.length) :
    ringView (ringWrite ⟨buf, pos⟩ x) = (ringView ⟨buf, pos⟩).tail ++ [x] := by
  have hset : buf.set pos x = buf.take pos ++ x :: buf.drop (pos + 1) :=
    List.set_eq_take_cons_drop x hpos
  have hlenset : (buf.set pos x).length = buf.length := List.length_set buf pos x
  have hlentake : (buf.take pos).length = pos := List.length_take_of_le (le_of_lt hpos)
  rcases Nat.lt_or_ge (pos + 1) buf.length with hlt | hge
  · -- position advances without wrapping
    have hmod : (pos + 1) % buf.length = pos + 1 := Nat.mod_eq_of_lt hlt
    have hdrop : (buf.set pos x).drop (pos + 1) = buf.drop (pos + 1) := by
      rw [hset, List.drop_append_eq_append_drop]
      simp [hlentake]
    have htake : (buf.set pos x).take (pos + 1) = buf.take pos ++ [x] := by
      rw [hset, List.take_append_eq_append_take]
      simp [hlentake, List.take_succ_cons]
    have hdropcons : buf.drop pos = buf[pos] :: buf.drop (pos + 1) :=
      List.drop_eq_getElem_cons hpos
    show (buf.set pos x).drop ((pos + 1) % buf.length)
        ++ (buf.set pos x).take ((pos + 1) % buf.length)
      = (buf.drop pos ++ buf.take pos).tail ++ [x]
    rw [hmod, hdrop, htake, hdropcons, List.cons_append, List.tail_cons,
      List.append_assoc]
  · -- pos + 1 = length: wrap to slot 0
    have heq : pos + 1 = buf.length := le_antisymm hpos hge
    have hmod : (pos + 1) % buf.length = 0 := by rw [heq]; exact Nat.mod_self _
    have hdropcons : buf.drop pos = buf[pos] :: buf.drop (pos + 1) :=
      List.drop_eq_getElem_cons hpos
    have hdropnil : buf.drop (pos + 1) = [] := by
      rw [heq]; exact List.drop_length buf
    show (buf.set pos x).drop ((pos + 1) % buf.length)
        ++ (buf.set pos x).take ((pos + 1) % buf.length)
      = (buf.drop pos ++ buf.take pos).tail ++ [x]
    rw [hmod, List.drop_zero, List.take_zero, List.append_nil, hset, hdropcons,
      hdropnil, List.cons_append, List.tail_cons, List.nil_append]

theorem ringRead_eq_ringView_head (buf : List ℚ) (pos : ℕ) (hpos : pos < buf.length) :
    ringRead ⟨buf, pos⟩ = (ringView ⟨buf, pos⟩).getD 0 0 := by
  have hdropcons : buf.drop pos = buf[pos] :: buf.drop (pos + 1) :=
    List.drop_eq_getElem_cons hpos
  show buf.getD pos 0 = (buf.drop pos ++ buf.take pos).getD 0 0
  rw [hdropcons, List.cons_append, List.getD_cons_zero, List.getD_eq_getElem buf 0 hpos]

/-- Running the ring buffer over `xs` produces, at index `n`, the `n`-th
element of the rotated initial content followed by the inputs. -/
theorem delayRun_getD (xs : List ℚ) (buf : List ℚ) (pos : ℕ)
    (hpos : pos < buf.length) (n : ℕ) (hn : n < xs.length) :
    (delayRun ⟨buf, pos⟩ xs).getD n 0 = (ringView ⟨buf, pos⟩ ++ xs).getD n 0 := by
  induction xs generalizing buf pos n with
  | nil => simp at hn
  | cons x xs ih =>
    have hlen : 0 < (ringView ⟨buf, pos⟩).length := by
      show 0 < (buf.drop pos ++ buf.take pos).length
      rw [List.length_append, List.length_drop, List.length_take]
      omega
    obtain ⟨v, vs, hview⟩ : ∃ v vs, ringView ⟨buf, pos⟩ = v :: vs := by
      cases hv : ringView ⟨buf, pos⟩ with
      | nil => rw [hv] at hlen; simp at hlen
      | cons v vs => exact ⟨v, vs, rfl⟩
    cases n with
    | zero =>
      have hhead := ringRead_eq_ringView_head buf pos hpos
      rw [show delayRun ⟨buf, pos⟩ (x :: xs)
            = ringRead ⟨buf, pos⟩ :: delayRun (ringWrite ⟨buf, pos⟩ x) xs from rfl,
        List.getD_cons_zero, hhead, hview, List.cons_append, List.getD_cons_zero,
        List.getD_cons_zero]
    | succ n =>
      have hbpos : 0 < buf.length := Nat.lt_of_le_of_lt (Nat.zero_le pos) hpos
      have hlenset : (buf.set pos x).length = buf.length := List.length_set buf pos x
      have hpos' : (pos + 1) % buf.length < (buf.set pos x).length := by
        rw [hlenset]; exact Nat.mod_lt _ hbpos
      have hn' : n < xs.length := by
        rw [List.length_cons] at hn; omega
      have hwrite : ringWrite ⟨buf, pos⟩ x
          = (⟨buf.set pos x, (pos + 1) % buf.length⟩ : DelayLine) := rfl
      have hstep := ih (buf.set pos x) ((pos + 1) % buf.length) hpos' n hn'
      rw [← hwrite] at hstep
      have hrot : ringView (ringWrite ⟨buf, pos⟩ x) = vs ++ [x] := by
        rw [ringView_write buf pos x hpos, hview, List.tail_cons]
      rw [show delayRun ⟨buf, pos⟩ (x :: xs)
            = ringRead ⟨buf, pos⟩ :: delayRun (ringWrite ⟨buf, pos⟩ x) xs from rfl,
        List.getD_cons_succ, hstep, hrot, hview, List.cons_append,
        List.getD_cons_succ, List.append_assoc, List.singleton_append]

/-- Claim C10: the delay line is an exact 4800-sample (100 ms at 48 kHz)
delay: its capacity is 4800 slots, and the delayed value read at global
sample index `n` is `0` for `n < 4800` (zero-initialized buffer) and the
system sample processed at index `n - 4800` afterwards. -/
theorem delayLine_exact_delay (xs : List ℚ) (n : ℕ) (hn : n < xs.length) :
    initDelayLine.buf.length = 4800 ∧
      (delayRun initDelayLine xs).getD n 0 =
        if n < 4800 then 0 else xs.getD (n - 4800) 0 := by
  have hcap : initDelayLine.buf.length = 4800 := by
    rw [show initDelayLine.buf = List.replicate 4800 0 from rfl, List.length_replicate]
  refine ⟨hcap, ?_⟩
  have hpos : (0 : ℕ) < (List.replicate 4800 (0:ℚ)).length := by
    rw [List.length_replicate]; norm_num
  have h := delayRun_getD xs (List.replicate 4800 0) 0 hpos n hn
  have hview : ringView ⟨List.replicate 4800 (0:ℚ), 0⟩ = List.replicate 4800 0 := by
    show List.drop 0 (List.replicate 4800 (0:ℚ)) ++ List.take 0 (List.replicate 4800 (0:ℚ))
        = List.replicate 4800 0
    rw [List.drop_zero, List.take_zero, List.append_nil]
  rw [initDelayLine, h, hview]
  rcases Nat.lt_or_ge n 4800 with hlt | hge
  · rw [if_pos hlt]
    have hlt' : n < (List.replicate 4800 (0:ℚ)).length := by
      rw [List.length_replicate]; exact hlt
    rw [List.getD_append _ _ _ _ hlt', List.getD_eq_getElem _ _ hlt',
      List.getElem_replicate]
  · rw [if_neg (by omega)]
    have hge' : (List.replicate 4800 (0:ℚ)).length ≤ n := by
      rw [List.length_replicate]; exact hge
    rw [List.getD_append_right _ _ _ _ hge', List.length_replicate]

/-- Witness for C10 at a concrete input: one sample through the fresh
delay line reads back the initial zero. -/
theorem delayLine_exact_delay_witness :
    (0 < ([(1:ℚ)] : List ℚ).length) ∧
      (delayRun initDelayLine [(1:ℚ)]).getD 0 0 =
        if 0 < 4800 then 0 else ([(1:ℚ)] : List ℚ).getD (0 - 4800) 0 :=
  ⟨by decide, (delayLine_exact_delay [(1:ℚ)] 0 (by decide)).2⟩

/-! ## Per-sample mixing loop (`processSystemAudio`, lines 96-122)

Samples are rationals; the C `expf` function is an explicit parameter
`expf : ℚ → ℚ` of every definition that soft-clips, so every theorem
quantifies over it.  A `none` microphone buffer models the `NULL`
`micBuffer` pointer (mic capture disabled): then `micSample` is `0` and
the echo subtraction is skipped, exactly as in the C code.
-/

/-- The soft clipper of `processSystemAudio`:
`if (mixed > 1.0f) mixed = 1.0f - expf(-mixed);
else if (mixed < -1.0f) mixed = -1.0f + expf(mixed);`. -/
def softClip (expf : ℚ → ℚ) (mixed : ℚ) : ℚ :=
  if mixed > 1 then 1 - expf (-mixed)
  else if mixed < -1 then -1 + expf mixed
  else mixed

/-- The body of the per-sample loop of `processSystemAudio` for one sample:
current system sample `s`, mic sample `m` (ignored when the mic buffer is
`NULL`), ducking factor `duck`, and the delayed system sample `delayed`
read from the delay line. -/
def mixSampleSrc (expf : ℚ → ℚ) (micOn : Bool) (duck s m delayed : ℚ) : ℚ :=
  let micSample := if micOn then m * duck else 0
  let micSample := if micOn then micSample - delayed * (3/10) else micSample
  let mixed := s * (7/10) + micSample * (6/10)
  softClip expf mixed

/-- The per-sample loop of `processSystemAudio` over a frame: reads the
delayed sample, overwrites the slot with the current system sample,
advances the ring position, computes the mixed sample and recurses.  The
mic buffer is read positionally (`micBuffer[i]`). -/
def mixLoop (expf : ℚ → ℚ) (micOn : Bool) (duck : ℚ) :
    DelayLine → List ℚ → List ℚ → List ℚ × DelayLine
  | d, [], _ => ([], d)
  | d, s :: ss, ms =>
    let delayed := ringRead d
    let d1 := ringWrite d s
    let out := mixSampleSrc expf micOn duck s (ms.headD 0) delayed
    let rest := mixLoop expf micOn duck d1 ss ms.tail
    (out :: rest.1, rest.2)

/-- Reference per-sample definition from the specification, §4.4 step 4:
`mic' = mic*micDuckingFactor - delayedSystem*0.3`, `out = system*0.7 +
mic'*0.6`, then soft-clip `out = 1 - exp(-out)` when `out > 1` and
`out = -1 + exp(out)` when `out < -1`. -/
def specMixSample (expf : ℚ → ℚ) (duck s m delayed : ℚ) : ℚ :=
  let micP := m * duck - delayed * (3/10)
  let out := s * (7/10) + micP * (6/10)
  if out > 1 then 1 - expf (-out)
  else if out < -1 then -1 + expf out
  else out

theorem mixLoop_length (expf : ℚ → ℚ) (micOn : Bool) (duck : ℚ)
    (d : DelayLine) (ss ms : List ℚ) :
    (mixLoop expf micOn duck d ss ms).1.length = ss.length := by
  induction ss generalizing d ms with
  | nil => rfl
  | cons s ss ih =>
    show (mixSampleSrc expf micOn duck s (ms.headD 0) (ringRead d)
        :: (mixLoop expf micOn duck (ringWrite d s) ss ms.tail).1).length
      = (s :: ss).length
    rw [List.length_cons, List.length_cons, ih]

theorem headD_eq_getD_zero (ms : List ℚ) : ms.headD 0 = ms.getD 0 0 := by
  cases ms <;> rfl

theorem tail_getD (ms : List ℚ) (n : ℕ) : ms.tail.getD n 0 = ms.getD (n + 1) 0 := by
  cases ms <;> rfl

/-- Claim C2: with mic capture enabled, every output sample of the mixing
loop equals the specification's reference definition applied to the
current system sample, the mic sample with the ducking factor, and the
delayed system sample produced by the delay line at that index. -/
theorem mixLoop_matches_spec (expf : ℚ → ℚ) (duck : ℚ) (d : DelayLine)
    (ss ms : List ℚ) (n : ℕ) (hn : n < ss.length) :
    (mixLoop expf true duck d ss ms).1.getD n 0 =
      specMixSample expf duck (ss.getD n 0) (ms.getD n 0)
        ((delayRun d ss).getD n 0) := by
  induction ss generalizing d ms n with
  | nil => simp at hn
  | cons s ss ih =>
    cases n with
    | zero =>
      show (mixSampleSrc expf true duck s (ms.headD 0) (ringRead d)
          :: (mixLoop expf true duck (ringWrite d s) ss ms.tail).1).getD 0 0 = _
      rw [List.getD_cons_zero,
        show delayRun d (s :: ss) = ringRead d :: delayRun (ringWrite d s) ss from rfl,
        List.getD_cons_zero, List.getD_cons_zero, headD_eq_getD_zero]
      rfl
    | succ n =>
      have hn' : n < ss.length := by rw [List.length_cons] at hn; omega
      show (mixSampleSrc expf true duck s (ms.headD 0) (ringRead d)
          :: (mixLoop expf true duck (ringWrite d s) ss ms.tail).1).getD (n+1) 0 = _
      rw [List.getD_cons_succ, ih (ringWrite d s) ms.tail n hn',
        show delayRun d (s :: ss) = ringRead d :: delayRun (ringWrite d s) ss from rfl,
        List.getD_cons_succ, List.getD_cons_succ, tail_getD]

/-- Witness for C2 at a concrete input: one system sample `1/2`, one mic
sample `1/4`, identity in place of `expf`, fresh delay line. -/
theorem mixLoop_matches_spec_witness :
    ((0:ℕ) < ([(1/2 : ℚ)] : List ℚ).length) ∧
      (mixLoop (fun q => q) true 1 initDelayLine [(1/2 : ℚ)] [(1/4 : ℚ)]).1.getD 0 0 =
        specMixSample (fun q => q) 1 (([(1/2 : ℚ)] : List ℚ).getD 0 0)
          (([(1/4 : ℚ)] : List ℚ).getD 0 0)
          ((delayRun initDelayLine [(1/2 : ℚ)]).getD 0 0) :=
  ⟨by decide, mixLoop_matches_spec (fun q => q) 1 initDelayLine [(1/2 : ℚ)] [(1/4 : ℚ)] 0 (by decide)⟩

/-! ## Frame-level mixing pass and accumulators

`processCombinedAudioIfReady` (`SystemAudioCapture.mm` lines 359-410)
checks readiness of the two accumulators (`BUFFER_SIZE = 960 floats`,
20 ms at 48 kHz), runs `processSystemAudio` on 960-sample slices,
quantizes the mixed output to 16-bit PCM and removes the consumed samples.
Byte buffers (`NSMutableData`) are modelled at float-sample granularity
(4 bytes per sample).
-/

/-- One whole `processSystemAudio` invocation: the ducking update followed
by the per-sample loop.  The mic argument is `none` when `micBuffer` is
`NULL`. -/
def processSystemAudioFrame (expf : ℚ → ℚ) (ctl : DuckSt) (d : DelayLine)
    (sys : List ℚ) (mic : Option (List ℚ)) : List ℚ × DuckSt × DelayLine :=
  let ctl1 := duckStep ctl sys
  let r := mixLoop expf mic.isSome ctl1.duck d sys (mic.getD [])
  (r.1, ctl1, r.2)

/-- `sample = fmax(-1.0f, fmin(1.0f, sample));` -/
def clampUnit (x : ℚ) : ℚ := max (-1) (min 1 x)

/-- Truncation toward zero, the semantics of the C cast
`(int16_t)(sample * 32767.0f)` after clamping. -/
def ratTrunc (q : ℚ) : ℤ := if 0 ≤ q then ⌊q⌋ else ⌈q⌉

/-- `pcmBuffer[i] = (int16_t)(sample * 32767.0f);` after clamping. -/
def pcmQuant (x : ℚ) : ℤ := ratTrunc (clampUnit x * 32767)

/-- The frame delivered to JavaScript: 960 16-bit samples plus the format
object `{sampleRate: 48000, channels: 1, bitsPerChannel: 16}`. -/
structure OutFrame where
  samples : List ℤ
  sampleRate : ℕ
  channels : ℕ
  bitsPerChannel : ℕ
  deriving DecidableEq

/-- Full capture-side state: mixer control state, delay line and the two
sample accumulators (`systemAudioBuffer`, `micAudioBuffer`). -/
structure CapState where
  ctl : DuckSt
  delay : DelayLine
  sysBuf : List ℚ
  micBuf : List ℚ
  deriving DecidableEq

/-- Capture state right after `startCaptureWithOptions` allocates a fresh
`AudioMixer` and empty accumulators. -/
def initCapState : CapState := ⟨initDuckSt, initDelayLine, [], []⟩

/-- `processCombinedAudioIfReady`: if the system accumulator holds at
least 960 samples and (mic capture disabled or the mic accumulator also
holds at least 960), mix one 960-sample frame, quantize it, and drop the
consumed samples (from the mic accumulator only when mic capture is
enabled); otherwise do nothing. -/
def processCombinedAudioIfReady (expf : ℚ → ℚ) (micOn : Bool) (st : CapState) :
    Option OutFrame × CapState :=
  if 960 ≤ st.sysBuf.length ∧ (micOn = false ∨ 960 ≤ st.micBuf.length) then
    let r := processSystemAudioFrame expf st.ctl st.delay (st.sysBuf.take 960)
      (if micOn then some (st.micBuf.take 960) else none)
    (some ⟨r.1.map pcmQuant, 48000, 1, 16⟩,
      ⟨r.2.1, r.2.2, st.sysBuf.drop 960,
        if micOn then st.micBuf.drop 960 else st.micBuf⟩)
  else (none, st)

/-- Claim C5: a frame is emitted exactly when the system accumulator holds
at least `FRAME_SIZE = 960` samples and (mic capture is disabled or the
mic accumulator also holds at least 960 samples), and every emitted frame
carries exactly 960 samples. -/
theorem frame_emission_iff_ready (expf : ℚ → ℚ) (micOn : Bool) (st : CapState) :
    ((processCombinedAudioIfReady expf micOn st).1.isSome = true ↔
        (960 ≤ st.sysBuf.length ∧ (micOn = false ∨ 960 ≤ st.micBuf.length))) ∧
      ∀ f : OutFrame, (processCombinedAudioIfReady expf micOn st).1 = some f →
        f.samples.length = 960 := by
  by_cases h : 960 ≤ st.sysBuf.length ∧ (micOn = false ∨ 960 ≤ st.micBuf.length)
  · rw [processCombinedAudioIfReady, if_pos h]
    refine ⟨by simpa using h, ?_⟩
    intro f hf
    have hf' : f = ⟨(processSystemAudioFrame expf st.ctl st.delay (st.sysBuf.take 960)
        (if micOn then some (st.micBuf.take 960) else none)).1.map pcmQuant,
        48000, 1, 16⟩ := by
      exact (Option.some_inj.mp hf).symm
    rw [hf']
    show ((processSystemAudioFrame expf st.ctl st.delay (st.sysBuf.take 960)
        (if micOn then some (st.micBuf.take 960) else none)).1.map pcmQuant).length = 960
    rw [List.length_map]
    show (mixLoop expf _ _ _ (st.sysBuf.take 960) _).1.length = 960
    rw [mixLoop_length, List.length_take]
    omega
  · rw [processCombinedAudioIfReady, if_neg h]
    refine ⟨by simpa using h, ?_⟩
    intro f hf
    simp at hf

/-- Witness for C5: with 960 zero samples accumulated from the system
source and mic capture disabled, a frame is emitted and it has exactly
960 samples. -/
theorem frame_emission_iff_ready_witness :
    ((processCombinedAudioIfReady (fun q => q) false
        ⟨initDuckSt, initDelayLine, List.replicate 960 0, []⟩).1.isSome = true) ∧
      ∃ f : OutFrame, (processCombinedAudioIfReady (fun q => q) false
          ⟨initDuckSt, initDelayLine, List.replicate 960 0, []⟩).1 = some f ∧
        f.samples.length = 960 := by
  have h := frame_emission_iff_ready (fun q => q) false
    ⟨initDuckSt, initDelayLine, List.replicate 960 0, []⟩
  have hready : (960 : ℕ) ≤ (List.replicate 960 (0:ℚ)).length ∧
      ((false = false) ∨ (960 : ℕ) ≤ ([] : List ℚ).length) := by
    refine ⟨?_, Or.inl rfl⟩
    rw [List.length_replicate]
  have hsome := h.1.mpr hready
  refine ⟨hsome, ?_⟩
  obtain ⟨f, hf⟩ := Option.isSome_iff_exists.mp hsome
  exact ⟨f, hf, h.2 f hf⟩

/-! ## Mic-only sessions (C9)

`startCaptureWithOptions` rejects a start only when neither source is
requested.  With `system: false`, `initializeSystemCapture` is never
called, so no ScreenCaptureKit delegate callback ever appends to
`systemAudioBuffer`; the only deliveries are microphone callbacks
(`captureOutput:didOutputSampleBuffer:fromConnection:`), each of which
appends to `micAudioBuffer` and then calls
`processCombinedAudioIfReady`.
-/

/-- The acceptance check of `startCaptureWithOptions`:
`if (!_shouldCaptureMic && !_shouldCaptureSystem) { ... return; }`. -/
def startCaptureAccepts (mic system : Bool) : Bool := mic || system

/-- One microphone delivery in a mic-only session: append the chunk to the
mic accumulator, then run `processCombinedAudioIfReady`, collecting any
emitted frame. -/
def micDeliverStep (expf : ℚ → ℚ) (acc : CapState × List OutFrame)
    (chunk : List ℚ) : CapState × List OutFrame :=
  let st1 : CapState := ⟨acc.1.ctl, acc.1.delay, acc.1.sysBuf, acc.1.micBuf ++ chunk⟩
  let r := processCombinedAudioIfReady expf true st1
  (r.2, acc.2 ++ r.1.toList)

/-- A whole mic-only session: every delivered chunk goes through
`micDeliverStep`, starting from the fresh capture state. -/
def runMicOnly (expf : ℚ → ℚ) (chunks : List (List ℚ)) : CapState × List OutFrame :=
  chunks.foldl (micDeliverStep expf) (initCapState, [])

theorem micDeliverStep_empty_sys (expf : ℚ → ℚ) (st : CapState)
    (fs : List OutFrame) (chunk : List ℚ) (hsys : st.sysBuf = []) :
    (micDeliverStep expf (st, fs) chunk).1.sysBuf = [] ∧
      (micDeliverStep expf (st, fs) chunk).2 = fs := by
  have hcond : ¬ (960 ≤ (⟨st.ctl, st.delay, st.sysBuf, st.micBuf ++ chunk⟩ :
      CapState).sysBuf.length ∧ (true = false ∨
        960 ≤ (⟨st.ctl, st.delay, st.sysBuf, st.micBuf ++ chunk⟩ :
          CapState).micBuf.length)) := by
    intro hc
    have := hc.1
    rw [show (⟨st.ctl, st.delay, st.sysBuf, st.micBuf ++ chunk⟩ :
      CapState).sysBuf = st.sysBuf from rfl, hsys] at this
    simp at this
  show ((processCombinedAudioIfReady expf true
      ⟨st.ctl, st.delay, st.sysBuf, st.micBuf ++ chunk⟩).2.sysBuf = []) ∧
    fs ++ (processCombinedAudioIfReady expf true
      ⟨st.ctl, st.delay, st.sysBuf, st.micBuf ++ chunk⟩).1.toList = fs
  rw [processCombinedAudioIfReady, if_neg hcond]
  exact ⟨hsys, by rw [Option.toList_none, List.append_nil]⟩

theorem runMicOnly_aux (expf : ℚ → ℚ) (chunks : List (List ℚ)) (st : CapState)
    (fs : List OutFrame) (hsys : st.sysBuf = []) :
    (chunks.foldl (micDeliverStep expf) (st, fs)).2 = fs := by
  induction chunks generalizing st fs with
  | nil => rfl
  | cons c cs ih =>
    obtain ⟨h1, h2⟩ := micDeliverStep_empty_sys expf st fs c hsys
    rw [List.foldl_cons]
    rw [show micDeliverStep expf (st, fs) c
        = ((micDeliverStep expf (st, fs) c).1, (micDeliverStep expf (st, fs) c).2)
      from rfl, h2]
    exact ih _ _ h1

/-- Claim C9 (implicit): a mic-only session (`mic: true, system: false`)
is accepted by `startCaptureWithOptions`, but since only the system
capture path appends to the system accumulator, the readiness check
`systemAudioBuffer.length >= BUFFER_SIZE` never passes and the session
emits zero frames for every sequence of microphone deliveries. -/
theorem mic_only_session_emits_nothing :
    startCaptureAccepts true false = true ∧
      ∀ (expf : ℚ → ℚ) (chunks : List (List ℚ)),
        (runMicOnly expf chunks).2 = [] := by
  refine ⟨rfl, fun expf chunks => ?_⟩
  exact runMicOnly_aux expf chunks initCapState [] rfl

/-! ## Renderer-side chunk reconciler (`AudioRecorder.tsx`)

`handleAudioData` receives `{buffer, format, sessionId}` events.  It
always records the format, then pushes the PCM16→float32 conversion of
the buffer onto `audioChunksRef` only when `isRecording` holds and the
frame's `sessionId` equals `recordingSessionId.current`.  Stored chunks
are tagged here with the frame's session id (a ghost annotation: the
code stores bare float arrays) so that provenance can be stated.
`startRecording` increments the session id and clears the chunk list;
`stopRecording` clears the recording flag.
-/

structure InFrame where
  sessionId : ℤ
  sampleRate : ℕ
  channels : ℕ
  pcm : List ℤ
  deriving DecidableEq

structure RecState where
  currentSessionId : ℤ
  isRecording : Bool
  format : ℕ × ℕ
  chunks : List (ℤ × List ℚ)
  deriving DecidableEq

/-- `float32Array[i] = int16Array[i] * (1.0 / 32768.0)`. -/
def pcmToFloat (v : ℤ) : ℚ := (v : ℚ) * (1 / 32768)

/-- The `handleAudioData` IPC listener of `AudioRecorder.tsx` (lines
43-97): update the format state, and append the converted chunk only when
recording and the session ids match. -/
def handleAudioData (st : RecState) (data : InFrame) : RecState :=
  let st1 : RecState := ⟨st.currentSessionId, st.isRecording,
    (data.sampleRate, data.channels), st.chunks⟩
  if st.isRecording = true ∧ data.sessionId = st.currentSessionId then
    ⟨st1.currentSessionId, st1.isRecording, st1.format,
      st1.chunks ++ [(data.sessionId, data.pcm.map pcmToFloat)]⟩
  else st1

/-- Renderer events: an incoming audio frame, a `startRecording` (which
increments `recordingSessionId` and resets `audioChunksRef` to `[]`), or
a `stopRecording` (which clears the recording flag, keeping the chunks
for reconstruction). -/
inductive RecEvent where
  | frame (data : InFrame)
  | start
  | stop
  deriving DecidableEq

def recStep (st : RecState) : RecEvent → RecState
  | RecEvent.frame data => handleAudioData st data
  | RecEvent.start =>
      ⟨st.currentSessionId + 1, true, st.format, []⟩
  | RecEvent.stop =>
      ⟨st.currentSessionId, false, st.format, st.chunks⟩

/-- Initial renderer state: `recordingSessionId.current = 0`, not
recording, default format `{sampleRate: 44100, channels: 1}`, no chunks. -/
def recInit : RecState := ⟨0, false, (44100, 1), []⟩

/-- Every stored chunk is tagged with the session id that was current when
it arrived; since sessions only change by `start` (which clears the
collection), this is equivalent to: every stored chunk's tag equals the
current session id. -/
def sessionChunksOK (st : RecState) : Bool :=
  st.chunks.all (fun c => c.1 == st.currentSessionId)

theorem recStep_preserves_sessionChunksOK (st : RecState) (e : RecEvent)
    (h : sessionChunksOK st = true) : sessionChunksOK (recStep st e) = true := by
  cases e with
  | frame data =>
    show sessionChunksOK (handleAudioData st data) = true
    rw [handleAudioData]
    by_cases hc : st.isRecording = true ∧ data.sessionId = st.currentSessionId
    · rw [if_pos hc]
      rw [sessionChunksOK] at h ⊢
      simp only [List.all_append, Bool.and_eq_true] at h ⊢
      refine ⟨h, ?_⟩
      simp only [List.all_cons, List.all_nil, Bool.and_true]
      exact beq_iff_eq.mpr hc.2
    · rw [if_neg hc]
      exact h
  | start =>
    rw [sessionChunksOK]
    rfl
  | stop => exact h

theorem recRun_sessionChunksOK (es : List RecEvent) (st : RecState)
    (h : sessionChunksOK st = true) :
    sessionChunksOK (es.foldl recStep st) = true := by
  induction es generalizing st with
  | nil => exact h
  | cons e es ih =>
    rw [List.foldl_cons]
    exact ih _ (recStep_preserves_sessionChunksOK st e h)

/-- Claim C7: a frame whose `sessionId` differs from the current session
id never changes the accumulated chunk collection, and along every event
sequence from the initial renderer state, the collection only contains
chunks whose (ghost) session tag equals the session id that was current
when they arrived. -/
theorem foreign_session_frames_discarded :
    (∀ (st : RecState) (data : InFrame),
        data.sessionId ≠ st.currentSessionId →
          (handleAudioData st data).chunks = st.chunks) ∧
      ∀ es : List RecEvent, sessionChunksOK (es.foldl recStep recInit) = true := by
  constructor
  · intro st data hne
    rw [handleAudioData, if_neg (fun hc => hne hc.2)]
  · intro es
    exact recRun_sessionChunksOK es recInit rfl

/-- Witness for C7: a concrete foreign frame (session 4 arriving while
session 5 is current) is discarded, and a concrete event run keeps the
collection consistent. -/
theorem foreign_session_frames_discarded_witness :
    (handleAudioData ⟨5, true, (48000, 1), []⟩ ⟨4, 48000, 1, [100]⟩).chunks
        = (⟨5, true, (48000, 1), []⟩ : RecState).chunks ∧
      sessionChunksOK ([RecEvent.start, RecEvent.frame ⟨1, 48000, 1, [100]⟩].foldl
        recStep recInit) = true :=
  ⟨foreign_session_frames_discarded.1 ⟨5, true, (48000, 1), []⟩ ⟨4, 48000, 1, [100]⟩
      (by decide),
    foreign_session_frames_discarded.2 [RecEvent.start, RecEvent.frame ⟨1, 48000, 1, [100]⟩]⟩

/-! ## Reconstruction at session stop (`stopRecording` in `AudioRecorder.tsx`)

`stopRecording` (lines 174-273) combines the accumulated chunks by plain
concatenation — `audioChunksRef.current.forEach(chunk => {
combinedArray.set(chunk, offset); offset += chunk.length; })` — computes
the peak of the combined array, and normalizes with
`targetPeak = 0.8`: `if (peakValue > targetPeak) { scaleFactor =
targetPeak / peakValue; combinedArray[i] *= scaleFactor; }`.
No timestamps are attached to chunks and no overlap detection or
crossfade exists anywhere in the repository.
-/

/-- Chunk combination of `stopRecording`: sequential copy of every chunk
at the running offset, i.e. concatenation in arrival order. -/
def combineChunks (chunks : List (List ℚ)) : List ℚ := chunks.flatten

/-- The peak normalization of `stopRecording`: `targetPeak = 0.8;
if (peakValue > targetPeak) scale everything by targetPeak / peakValue`. -/
def normalizeBuffer (xs : List ℚ) : List ℚ :=
  if peakAbs xs > 4/5 then xs.map (fun s => s * (4/5 / peakAbs xs)) else xs

/-- The whole reconstruction of `stopRecording`: concatenate the chunks,
then apply the peak normalization. -/
def reconstruct (chunks : List (List ℚ)) : List ℚ :=
  normalizeBuffer (combineChunks chunks)

theorem normalizeBuffer_length (xs : List ℚ) :
    (normalizeBuffer xs).length = xs.length := by
  rw [normalizeBuffer]
  split
  · rw [List.length_map]
  · rfl

theorem peakAbs_foldl_map_mul (c : ℚ) (hc : 0 ≤ c) (xs : List ℚ) :
    ∀ a : ℚ, (xs.map (fun s => s * c)).foldl (fun b x => max b |x|) (c * a)
      = c * xs.foldl (fun b x => max b |x|) a := by
  induction xs with
  | nil => intro a; rfl
  | cons x xs ih =>
    intro a
    rw [List.map_cons, List.foldl_cons, List.foldl_cons]
    have habs : |x * c| = c * |x| := by
      rw [abs_mul, abs_of_nonneg hc, mul_comm]
    rw [habs, ← mul_max_of_nonneg _ _ hc, ih]

theorem peakAbs_map_mul (c : ℚ) (hc : 0 ≤ c) (xs : List ℚ) :
    peakAbs (xs.map (fun s => s * c)) = c * peakAbs xs := by
  have h := peakAbs_foldl_map_mul c hc xs 0
  rw [mul_zero] at h
  exact h

theorem peakAbs_singleton (x : ℚ) : peakAbs [x] = max 0 |x| := rfl

theorem peakAbs_pair (x y : ℚ) : peakAbs [x, y] = max (max 0 |x|) |y| := rfl

/-- Counterexample to claim C3: reconstruction of two 100-sample entries
(the claim's entries `A` over `[0,100)` and `B` over `[90,190)` with
matching values) yields a buffer of 200 samples, not 190 — the code
concatenates and never aligns or crossfades. -/
theorem reconstruct_no_crossfade_counterexample :
    (reconstruct [List.replicate 100 (1/2 : ℚ), List.replicate 100 (1/2 : ℚ)]).length
      ≠ 190 := by
  have hlen : (reconstruct [List.replicate 100 (1/2 : ℚ),
      List.replicate 100 (1/2 : ℚ)]).length = 200 := by
    rw [reconstruct, normalizeBuffer_length, combineChunks]
    rw [show [List.replicate 100 (1/2 : ℚ), List.replicate 100 (1/2 : ℚ)].flatten
        = List.replicate 100 (1/2 : ℚ) ++ (List.replicate 100 (1/2 : ℚ) ++ []) from rfl]
    rw [List.append_nil, List.length_append, List.length_replicate]
  rw [hlen]
  norm_num

/-- Claim C3 (amended): reconstruction ignores any notion of sample
ranges or timestamps: the two entries are concatenated in arrival order,
so the output has `a.length + b.length` samples, and — whenever the
combined peak is at most `4/5` so the normalization is the identity — the
second entry appears verbatim after the first, with no crossfade. -/
theorem reconstruct_concatenates (a b : List ℚ) :
    (reconstruct [a, b]).length = a.length + b.length ∧
      (peakAbs (a ++ b) ≤ 4/5 → reconstruct [a, b] = a ++ b) := by
  have hcomb : combineChunks [a, b] = a ++ b := by
    rw [combineChunks]
    simp
  constructor
  · rw [reconstruct, normalizeBuffer_length, hcomb, List.length_append]
  · intro hpk
    rw [reconstruct, hcomb, normalizeBuffer, if_neg (not_lt.mpr hpk)]

/-- Witness for the amended C3 at a concrete input. -/
theorem reconstruct_concatenates_witness :
    (reconstruct [[(1/2 : ℚ)], [(1/4 : ℚ)]]).length = 2 ∧
      reconstruct [[(1/2 : ℚ)], [(1/4 : ℚ)]] = [(1/2 : ℚ)] ++ [(1/4 : ℚ)] := by
  have hpk : peakAbs ([(1/2 : ℚ)] ++ [(1/4 : ℚ)]) ≤ 4/5 := by
    rw [show ([(1/2 : ℚ)] ++ [(1/4 : ℚ)]) = [(1/2 : ℚ), (1/4 : ℚ)] from rfl,
      peakAbs_pair]
    refine max_le (max_le (by norm_num) ?_) ?_ <;> rw [abs_of_nonneg] <;> norm_num
  exact ⟨(reconstruct_concatenates [(1/2 : ℚ)] [(1/4 : ℚ)]).1,
    (reconstruct_concatenates [(1/2 : ℚ)] [(1/4 : ℚ)]).2 hpk⟩

/-- Counterexample to claim C6: the buffer `[9/10]` has peak `9/10 ≤ 1`,
so by the claim normalization should be a no-op, but the code rescales
every buffer whose peak exceeds `0.8` (to `[4/5]` here). -/
theorem normalize_threshold_counterexample :
    peakAbs [(9/10 : ℚ)] ≤ 1 ∧ normalizeBuffer [(9/10 : ℚ)] ≠ [(9/10 : ℚ)] := by
  have hpk : peakAbs [(9/10 : ℚ)] = 9/10 := by
    rw [peakAbs_singleton, abs_of_nonneg (by norm_num : (0:ℚ) ≤ 9/10),
      max_eq_right (by norm_num : (0:ℚ) ≤ 9/10)]
  constructor
  · rw [hpk]; norm_num
  · rw [normalizeBuffer, hpk, if_pos (by norm_num)]
    simp only [List.map_cons, List.map_nil]
    intro hcontra
    rw [List.cons.injEq] at hcontra
    have hhead := hcontra.1
    norm_num at hhead

/-- Claim C6 (amended): at the end of reconstruction the buffer is left
unchanged when its peak absolute value is at most `0.8`, and when the
peak exceeds `0.8` every sample is scaled by `0.8/peak`, making the new
peak exactly `0.8`. -/
theorem normalizeBuffer_spec (xs : List ℚ) :
    (peakAbs xs ≤ 4/5 → normalizeBuffer xs = xs) ∧
      (4/5 < peakAbs xs →
        normalizeBuffer xs = xs.map (fun s => s * (4/5 / peakAbs xs)) ∧
          peakAbs (normalizeBuffer xs) = 4/5) := by
  constructor
  · intro h
    rw [normalizeBuffer, if_neg (not_lt.mpr h)]
  · intro h
    have hpos : (0 : ℚ) < peakAbs xs := lt_trans (by norm_num) h
    have hne : peakAbs xs ≠ 0 := ne_of_gt hpos
    have hc : (0 : ℚ) ≤ 4/5 / peakAbs xs := by positivity
    have hmap : normalizeBuffer xs = xs.map (fun s => s * (4/5 / peakAbs xs)) := by
      rw [normalizeBuffer, if_pos h]
    refine ⟨hmap, ?_⟩
    rw [hmap, peakAbs_map_mul _ hc, div_mul_cancel₀ _ hne]

/-- Witness for the amended C6 at concrete inputs on both sides of the
`0.8` threshold. -/
theorem normalizeBuffer_spec_witness :
    (peakAbs [(1/2 : ℚ)] ≤ 4/5 ∧ normalizeBuffer [(1/2 : ℚ)] = [(1/2 : ℚ)]) ∧
      ((4/5 : ℚ) < peakAbs [(9/10 : ℚ)] ∧
        peakAbs (normalizeBuffer [(9/10 : ℚ)]) = 4/5) := by
  have h1 : peakAbs [(1/2 : ℚ)] = 1/2 := by
    rw [peakAbs_singleton, abs_of_nonneg (by norm_num : (0:ℚ) ≤ 1/2),
      max_eq_right (by norm_num : (0:ℚ) ≤ 1/2)]
  have h2 : peakAbs [(9/10 : ℚ)] = 9/10 := by
    rw [peakAbs_singleton, abs_of_nonneg (by norm_num : (0:ℚ) ≤ 9/10),
      max_eq_right (by norm_num : (0:ℚ) ≤ 9/10)]
  have ha : peakAbs [(1/2 : ℚ)] ≤ 4/5 := by rw [h1]; norm_num
  have hb : (4/5 : ℚ) < peakAbs [(9/10 : ℚ)] := by rw [h2]; norm_num
  exact ⟨⟨ha, (normalizeBuffer_spec [(1/2 : ℚ)]).1 ha⟩,
    ⟨hb, ((normalizeBuffer_spec [(9/10 : ℚ)]).2 hb).2⟩⟩

/-! ## Container encoder (`audioBufferToWav` in `AudioRecorder.tsx`)

The WAV container is a byte list.  `DataView.setUint32(·, ·, true)` and
`setUint16` store values little-endian modulo `2^32`/`2^16`, realized
here by byte extraction; `setInt16` stores the two's complement of the
PCM value.  `Math.random()`-based dither is a parameter
`dither : ℕ → ℚ` giving the noise added to the sample at each index.
-/

def u32le (v : ℕ) : List ℕ :=
  [v % 256, v / 256 % 256, v / 65536 % 256, v / 16777216 % 256]

def u16le (v : ℕ) : List ℕ := [v % 256, v / 256 % 256]

/-- `view.setInt16(offset, pcmValue, true)`: two bytes of the two's
complement representation, little-endian. -/
def i16le (v : ℤ) : List ℕ :=
  [(v % 65536).toNat % 256, (v % 65536).toNat / 256]

/-- `Math.round(sample * 32767)` after
`sample = Math.max(-1.0, Math.min(1.0, sample))`; JavaScript's
`Math.round` is `⌊x + 1/2⌋`. -/
def quantizeSample (x : ℚ) : ℤ := ⌊clampUnit x * 32767 + 1/2⌋

/-- The data-writing loop of `audioBufferToWav`: for each sample, add the
dither noise for its index, clamp, round, and store two bytes. -/
def wavData (dither : ℕ → ℚ) : ℕ → List ℚ → List ℕ
  | _, [] => []
  | i, x :: xs => i16le (quantizeSample (x + dither i)) ++ wavData dither (i + 1) xs

/-- `audioBufferToWav` (`AudioRecorder.tsx` lines 275-324): the 44-byte
RIFF/WAVE header written field by field at offsets 0,4,8,...,40, followed
by the 16-bit PCM data. -/
def audioBufferToWav (dither : ℕ → ℚ) (samples : List ℚ)
    (numChannels sampleRate : ℕ) : List ℕ :=
  let bitDepth := 16
  let dataLength := samples.length * numChannels * (bitDepth / 8)
  let bufferLength := 44 + dataLength
  [82, 73, 70, 70] ++ u32le (bufferLength - 8)
    ++ [87, 65, 86, 69] ++ [102, 109, 116, 32]
    ++ u32le 16 ++ u16le 1 ++ u16le numChannels ++ u32le sampleRate
    ++ u32le (sampleRate * numChannels * (bitDepth / 8))
    ++ u16le (numChannels * (bitDepth / 8)) ++ u16le bitDepth
    ++ [100, 97, 116, 97] ++ u32le dataLength
    ++ wavData dither 0 samples

/-- Little-endian 32-bit read at a byte offset, for stating header-field
properties. -/
def readU32le : List ℕ → ℕ → ℕ
  | b0 :: b1 :: b2 :: b3 :: _, 0 => b0 + 256 * (b1 + 256 * (b2 + 256 * b3))
  | _ :: rest, n + 1 => readU32le rest n
  | _, _ => 0

/-- The value a `u32le` field decodes to. -/
def u32val (v : ℕ) : ℕ :=
  v % 256 + 256 * (v / 256 % 256 + 256 * (v / 65536 % 256 + 256 * (v / 16777216 % 256)))

theorem u32val_eq_mod (v : ℕ) : u32val v = v % 4294967296 := by
  unfold u32val
  omega

theorem wav_riffSize_field (dither : ℕ → ℚ) (samples : List ℚ)
    (numChannels sampleRate : ℕ) :
    readU32le (audioBufferToWav dither samples numChannels sampleRate) 4
      = u32val (44 + samples.length * numChannels * 2 - 8) := rfl

theorem wav_dataSize_field (dither : ℕ → ℚ) (samples : List ℚ)
    (numChannels sampleRate : ℕ) :
    readU32le (audioBufferToWav dither samples numChannels sampleRate) 40
      = u32val (samples.length * numChannels * 2) := rfl

theorem i16le_length (v : ℤ) : (i16le v).length = 2 := rfl

theorem wavData_length (dither : ℕ → ℚ) (samples : List ℚ) :
    ∀ i : ℕ, (wavData dither i samples).length = 2 * samples.length := by
  induction samples with
  | nil => intro i; rfl
  | cons x xs ih =>
    intro i
    show (i16le (quantizeSample (x + dither i)) ++ wavData dither (i + 1) xs).length
      = 2 * (x :: xs).length
    rw [List.length_append, i16le_length, ih, List.length_cons]
    ring

theorem audioBufferToWav_length (dither : ℕ → ℚ) (samples : List ℚ)
    (numChannels sampleRate : ℕ) :
    (audioBufferToWav dither samples numChannels sampleRate).length
      = 44 + (wavData dither 0 samples).length := by
  show ([82, 73, 70, 70] ++ u32le (44 + samples.length * numChannels * (16 / 8) - 8)
    ++ [87, 65, 86, 69] ++ [102, 109, 116, 32]
    ++ u32le 16 ++ u16le 1 ++ u16le numChannels ++ u32le sampleRate
    ++ u32le (sampleRate * numChannels * (16 / 8))
    ++ u16le (numChannels * (16 / 8)) ++ u16le 16
    ++ [100, 97, 116, 97] ++ u32le (samples.length * numChannels * (16 / 8))
    ++ wavData dither 0 samples).length = 44 + (wavData dither 0 samples).length
  simp only [List.length_append, u32le, u16le, List.length_cons, List.length_nil]

/-- Counterexample to claim C4 as universally stated: at `N = 2^31` the
32-bit RIFF chunk-size field wraps (`DataView.setUint32` stores values
modulo `2^32`), so it holds `36`, not `36 + 2N`. -/
theorem wav_riffSize_wraps_counterexample :
    readU32le (audioBufferToWav (fun _ => 0) (List.replicate 2147483648 0) 1 48000) 4
      ≠ 36 + 2 * 2147483648 := by
  have h := wav_riffSize_field (fun _ => (0:ℚ)) (List.replicate 2147483648 0) 1 48000
  rw [u32val_eq_mod, List.length_replicate] at h
  rw [h]
  omega

/-- Claim C4 (amended): for every `N` whose header fields fit in 32 bits
(`36 + 2N < 2^32`), encoding `N` zero samples at 48 kHz, mono, 16-bit —
for any dither noise — yields a container of exactly `44 + 2N` bytes
whose RIFF chunk-size field is `36 + 2N` and whose data chunk-size field
is `2N`; for larger `N` the 32-bit fields wrap modulo `2^32`. -/
theorem wav_container_sizes (N : ℕ) (dither : ℕ → ℚ)
    (h : 36 + 2 * N < 4294967296) :
    (audioBufferToWav dither (List.replicate N 0) 1 48000).length = 44 + 2 * N ∧
      readU32le (audioBufferToWav dither (List.replicate N 0) 1 48000) 4
        = 36 + 2 * N ∧
      readU32le (audioBufferToWav dither (List.replicate N 0) 1 48000) 40
        = 2 * N := by
  refine ⟨?_, ?_, ?_⟩
  · rw [audioBufferToWav_length, wavData_length, List.length_replicate]
  · rw [wav_riffSize_field, u32val_eq_mod, List.length_replicate]
    omega
  · rw [wav_dataSize_field, u32val_eq_mod, List.length_replicate]
    omega

/-- Witness for the amended C4 at `N = 3`. -/
theorem wav_container_sizes_witness :
    (36 + 2 * 3 < 4294967296) ∧
      (audioBufferToWav (fun _ => 0) (List.replicate 3 0) 1 48000).length = 44 + 2 * 3 ∧
      readU32le (audioBufferToWav (fun _ => 0) (List.replicate 3 0) 1 48000) 4
        = 36 + 2 * 3 ∧
      readU32le (audioBufferToWav (fun _ => 0) (List.replicate 3 0) 1 48000) 40
        = 2 * 3 :=
  ⟨by norm_num, wav_container_sizes 3 (fun _ => 0) (by norm_num)⟩

/-! ## Capture teardown (`stopCapture`, `SystemAudioCapture.mm` lines 412-476,
and the `stop-audio-capture` IPC handler, `main.ts` lines 113-123)

`stopCapture` returns immediately when `isCapturing` is already false;
otherwise it clears the flag, stops and nils the system stream and the
mic session, empties both accumulators, cleans up and nils the mixer and
releases the JS callback.  The performed release operations are collected
in an explicit action list so that "no resource release action is
performed twice" can be stated.
-/

inductive ReleaseAction where
  | stopSystemStream
  | stopMicSession
  | cleanupMixer
  | releaseCallback
  deriving DecidableEq

/-- Observable state of an `AudioCapturer`: the capturing flag, which
resources are currently held, and the two accumulators. -/
structure NativeState where
  isCapturing : Bool
  systemStream : Bool
  micSession : Bool
  audioMixer : Bool
  jsCallback : Bool
  sysBuf : List ℚ
  micBuf : List ℚ
  deriving DecidableEq

/-- `stopCapture`: early return when not capturing, otherwise release
every held resource, clear the buffers, and report the release actions
performed. -/
def stopCapture (s : NativeState) : NativeState × List ReleaseAction :=
  if s.isCapturing then
    (⟨false, false, false, false, s.jsCallback, [], []⟩,
      (if s.systemStream then [ReleaseAction.stopSystemStream] else [])
        ++ (if s.micSession then [ReleaseAction.stopMicSession] else [])
        ++ (if s.audioMixer then [ReleaseAction.cleanupMixer] else [])
        ++ (if s.jsCallback then [ReleaseAction.releaseCallback] else []))
  else (s, [])

/-- The `stop-audio-capture` IPC handler of `main.ts`: if a capturer
exists, stop it and null the reference; otherwise do nothing. -/
def mainStopHandler (h : Option NativeState) : Option NativeState × List ReleaseAction :=
  match h with
  | none => (none, [])
  | some s => (none, (stopCapture s).2)

/-- Claim C8: `stop()` is idempotent: for every capture state, a second
`stopCapture` leaves the state unchanged and performs no release action,
and a second invocation of the `stop-audio-capture` handler (which nulls
the capturer reference after the first) is likewise a no-op. -/
theorem stopCapture_idempotent :
    (∀ s : NativeState,
        stopCapture (stopCapture s).1 = ((stopCapture s).1, [])) ∧
      ∀ h : Option NativeState,
        mainStopHandler (mainStopHandler h).1 = (none, []) := by
  constructor
  · intro s
    by_cases hc : s.isCapturing
    · have h1 : (stopCapture s).1
          = (⟨false, false, false, false, s.jsCallback, [], []⟩ : NativeState) := by
        rw [stopCapture, if_pos hc]
      rw [h1]
      rfl
    · have h1 : (stopCapture s).1 = s := by
        rw [stopCapture, if_neg hc]
      rw [h1]
      rw [stopCapture, if_neg hc]
  · intro h
    cases h with
    | none => rfl
    | some s => rfl
